import Mathlib

/-!
Verification development for the `cliinator` bulk-operation CLI
(`src/cli.ts`).  The definitions below are shallow embeddings of the
program's core components:

* `RateLimiter.acquire` (cli.ts lines 21-34): sliding-window rate limiter.
  Times are milliseconds as natural numbers (`Date.now()`); the mutable
  `timestamps` array is threaded explicitly as a `List Nat`.
* `parallelChunked` (cli.ts lines 50-62): chunked parallel runner.  The JS
  `for (let i = 0; i < items.length; i += chunkSize)` loop is embedded with
  an explicit `Int` index, ECMAScript `Array.prototype.slice` semantics, and
  a fuel parameter (the loop need not terminate when `chunkSize ≤ 0`).
  `Promise.all` rejection semantics are embedded by `chunkAll` over
  `Except`-valued actions.
* the pagination loops `fetchAllUsers` / `fetchAllOrgs` (cli.ts 119-150),
  with the remote cursor chain modelled as a list of pages and an event
  trace recording `acquire` and page-fetch calls.
* the bulk commands' failure classification and console output
  (`deleteAllOrgs`, `deleteAllUsers`, `deleteAllMemberships`,
  `createOrgs`, `createUsers`, `createOrgMembership`, `listUsers`).
-/

namespace Cliinator

/-! ## Sliding-window rate limiter (cli.ts 14-35)

`purge W now ts` is `this.timestamps = this.timestamps.filter((t) => now - t < this.windowMs)`.
`attempt` is the synchronous body of `acquire` between suspension points:
it purges, and either records `now` (returning `true`) or leaves the purged
list unchanged (returning `false`, after which the code sleeps and retries).
`runAttempts` threads the limiter state through a schedule of attempt
times, also accumulating the history of recorded (granted) timestamps.
`acquireLoop` is the full retry loop of a single caller: on a full window it
sleeps `timestamps[0] + windowMs - now + 10` ms and re-invokes itself; the
new current time after an idealized sleep is `now + waitTime`.  Fuel bounds
the number of retries; `none` means the fuel ran out before a permit. -/

def purge (W now : Nat) (ts : List Nat) : List Nat :=
  ts.filter (fun t => decide (now - t < W))

def attempt (maxR W now : Nat) (ts : List Nat) : List Nat × Bool :=
  let k := purge W now ts
  if k.length < maxR then (k ++ [now], true) else (k, false)

def runAttempts (maxR W : Nat) : List Nat → List Nat → List Nat → List Nat × List Nat
  | ts, hist, [] => (ts, hist)
  | ts, hist, now :: rest =>
    let p := attempt maxR W now ts
    runAttempts maxR W p.1 (if p.2 then hist ++ [now] else hist) rest

/-- Number of recorded timestamps that fall in the trailing window of width
`W` ending at instant `T`. -/
def windowCount (W T : Nat) (hist : List Nat) : Nat :=
  hist.countP (fun t => decide (t ≤ T ∧ T - t < W))

def acquireLoop (maxR W : Nat) : Nat → Nat → List Nat → Option (List Nat × Nat)
  | 0, _, _ => none
  | fuel + 1, now, ts =>
    let k := purge W now ts
    if k.length < maxR then some (k ++ [now], now)
    else acquireLoop maxR W fuel (now + (k.headD now + W - now + 10)) k

lemma purge_sublist (W now : Nat) (ts : List Nat) :
    List.Sublist (purge W now ts) ts :=
  List.filter_sublist ts

lemma length_purge_le (W now : Nat) (ts : List Nat) :
    (purge W now ts).length ≤ ts.length :=
  (purge_sublist W now ts).length_le

lemma mem_purge {W now t : Nat} {ts : List Nat} :
    t ∈ purge W now ts ↔ t ∈ ts ∧ now - t < W := by
  simp [purge]

lemma purge_purge {W last now : Nat} {hist : List Nat} (h : last ≤ now) :
    purge W now (purge W last hist) = purge W now hist := by
  unfold purge
  rw [List.filter_filter]
  refine List.filter_congr ?_
  intro t ht
  have h1 : now - t ≤ last - t + (now - last) := by omega
  have h2 : last - t ≤ now - t := Nat.sub_le_sub_right h t
  by_cases hnow : now - t < W
  · have : last - t < W := lt_of_le_of_lt h2 hnow
    simp [hnow, this]
  · simp [hnow]

lemma purge_append_singleton {W now : Nat} (hW : 0 < W) (hist : List Nat) :
    purge W now (hist ++ [now]) = purge W now hist ++ [now] := by
  unfold purge
  rw [List.filter_append]
  simp [hW]

lemma windowCount_append (W T : Nat) (h1 h2 : List Nat) :
    windowCount W T (h1 ++ h2) = windowCount W T h1 + windowCount W T h2 := by
  simp [windowCount, List.countP_append]

lemma windowCount_singleton (W T n : Nat) :
    windowCount W T [n] = if n ≤ T ∧ T - n < W then 1 else 0 := by
  by_cases h : n ≤ T ∧ T - n < W <;>
    simp [windowCount, List.countP_cons, h]

lemma length_purge_eq_windowCount {W now : Nat} {hist : List Nat}
    (hle : ∀ t ∈ hist, t ≤ now) :
    (purge W now hist).length = windowCount W now hist := by
  unfold purge windowCount
  rw [← List.countP_eq_length_filter]
  refine List.countP_congr ?_
  intro t ht
  have := hle t ht
  simp [this]

lemma runAttempts_append (maxR W : Nat) (s1 s2 ts hist : List Nat) :
    runAttempts maxR W ts hist (s1 ++ s2) =
      runAttempts maxR W (runAttempts maxR W ts hist s1).1
        (runAttempts maxR W ts hist s1).2 s2 := by
  induction s1 generalizing ts hist with
  | nil => simp [runAttempts]
  | cons now rest ih => simp only [List.cons_append, runAttempts]; exact ih _ _

/-- Core invariant of the sliding-window limiter under any nondecreasing
schedule of admission attempts: the live `timestamps` list is exactly the
window filter of the full grant history at the time of the last attempt,
all granted timestamps are at most that time, and no trailing window of
width `W` ever contains more than `maxR` grants. -/
lemma runAttempts_spec (maxR W : Nat) (hW : 0 < W) :
    ∀ (sched : List Nat) (last : Nat) (hist : List Nat),
      List.Chain' (fun a b => a ≤ b) (last :: sched) →
      (∀ t ∈ hist, t ≤ last) →
      (∀ T, windowCount W T hist ≤ maxR) →
      (∀ t ∈ (runAttempts maxR W (purge W last hist) hist sched).2,
          t ≤ sched.getLastD last) ∧
      (runAttempts maxR W (purge W last hist) hist sched).1 =
        purge W (sched.getLastD last)
          (runAttempts maxR W (purge W last hist) hist sched).2 ∧
      (∀ T, windowCount W T
          (runAttempts maxR W (purge W last hist) hist sched).2 ≤ maxR) := by
  intro sched
  induction sched with
  | nil =>
    intro last hist _ hle hwin
    refine ⟨?_, rfl, hwin⟩
    simpa using hle
  | cons now rest ih =>
    intro last hist hchain hle hwin
    have hln : last ≤ now := (List.chain'_cons.mp hchain).1
    have hchain2 : List.Chain' (fun a b => a ≤ b) (now :: rest) :=
      (List.chain'_cons.mp hchain).2
    have hk : purge W now (purge W last hist) = purge W now hist :=
      purge_purge hln
    have hlenow : ∀ t ∈ hist, t ≤ now := fun t ht => le_trans (hle t ht) hln
    simp only [runAttempts, attempt, hk, List.getLastD_cons]
    by_cases hfull : (purge W now hist).length < maxR
    · simp only [hfull, if_pos, if_true]
      have hpush : purge W now hist ++ [now] = purge W now (hist ++ [now]) :=
        (purge_append_singleton hW hist).symm
      rw [hpush]
      refine ih now (hist ++ [now]) hchain2 ?_ ?_
      · intro t ht
        rcases List.mem_append.mp ht with h1 | h1
        · exact hlenow t h1
        · simp at h1; omega
      · intro T
        rw [windowCount_append, windowCount_singleton]
        by_cases hT : now ≤ T ∧ T - now < W
        · have hmono : windowCount W T hist ≤ (purge W now hist).length := by
            rw [length_purge_eq_windowCount hlenow]
            unfold windowCount
            refine List.countP_mono_left ?_
            intro t ht hp
            simp only [decide_eq_true_eq] at hp ⊢
            have h1 : t ≤ now := hlenow t ht
            have h2 : T - t < W := hp.2
            constructor
            · exact h1
            · omega
          rw [if_pos hT]
          omega
        · rw [if_neg hT]
          have := hwin T
          omega
    · simp only [hfull, if_neg, if_false]
      exact ih now hist hchain2 hlenow hwin

/-- C1: for every limiter configured with `maxPermits ≥ 1` and
`windowMs ≥ 1`, starting from the empty timestamp list, and for every
nondecreasing schedule of `acquire` admission attempts (completed acquires
are exactly the attempts that record a timestamp), no trailing window of
width `windowMs` ever contains more than `maxPermits` recorded
timestamps; moreover after each attempt (in particular after each
completed acquire, i.e. each schedule prefix `p ++ [n]`) the live
timestamps list holds at most `maxPermits` entries, each of them within
`windowMs` of the current time `n`. -/
theorem rateLimiter_window_invariant (maxR W : Nat) (hmax : 1 ≤ maxR)
    (hW : 1 ≤ W) (sched : List Nat)
    (hmono : List.Chain' (fun a b => a ≤ b) sched) :
    (∀ T, windowCount W T (runAttempts maxR W [] [] sched).2 ≤ maxR) ∧
    (∀ p n rest, sched = p ++ [n] ++ rest →
      (runAttempts maxR W [] [] (p ++ [n])).1.length ≤ maxR ∧
      ∀ t ∈ (runAttempts maxR W [] [] (p ++ [n])).1, n - t < W ∧ t ≤ n) := by
  have h0 : purge W 0 ([] : List Nat) = [] := rfl
  have hzero : ∀ (l : List Nat), List.Chain' (fun a b => a ≤ b) l →
      List.Chain' (fun a b => a ≤ b) (0 :: l) := by
    intro l hl
    refine List.chain'_cons'.mpr ⟨?_, hl⟩
    intro b _
    exact Nat.zero_le b
  constructor
  · intro T
    have := runAttempts_spec maxR W hW sched 0 []
      (hzero sched hmono) (by simp) (by simp [windowCount])
    rw [h0] at this
    exact this.2.2 T
  · intro p n rest hs
    have hpre : List.Chain' (fun a b => a ≤ b) (p ++ [n]) := by
      rw [hs, List.append_assoc] at hmono
      exact (List.chain'_append.mp (by rwa [← List.append_assoc] at hmono)).1
    have hspec := runAttempts_spec maxR W hW (p ++ [n]) 0 []
      (hzero _ hpre) (by simp) (by simp [windowCount])
    rw [h0] at hspec
    have hlastd : (p ++ [n]).getLastD 0 = n := List.getLastD_concat _ _ _
    rw [hlastd] at hspec
    obtain ⟨hle, hst, hwin⟩ := hspec
    constructor
    · rw [hst, length_purge_eq_windowCount hle]
      exact hwin n
    · intro t ht
      rw [hst] at ht
      rcases mem_purge.mp ht with ⟨hmem, hlt⟩
      exact ⟨hlt, hle t hmem⟩

theorem rateLimiter_window_invariant_witness :
    windowCount 2 5 (runAttempts 1 2 [] [] [0, 1, 5]).2 ≤ 1 :=
  (rateLimiter_window_invariant 1 2 (by decide) (by decide) [0, 1, 5]
    (by norm_num [List.chain'_cons])).1 5

/-- C6: each call to `acquire` first discards the recorded timestamps that
have aged out of the window (every timestamp that is older than
`now - windowMs`, i.e. whose age `now - t` has reached `windowMs`, is
discarded, and every kept timestamp is strictly within the window); if the
remaining count is below `maxPermits` it records `now` and returns
immediately (completion time `now`, no wait); otherwise it waits exactly
`oldestRemaining + windowMs - now + 10` milliseconds and re-evaluates the
whole admission check from the top on the purged list. -/
theorem acquire_step_behavior (maxR W now fuel : Nat) (ts : List Nat) :
    (∀ t ∈ ts, t ∉ purge W now ts → W ≤ now - t) ∧
    (∀ t ∈ purge W now ts, now - t < W) ∧
    ((purge W now ts).length < maxR →
      acquireLoop maxR W (fuel + 1) now ts =
        some (purge W now ts ++ [now], now)) ∧
    (maxR ≤ (purge W now ts).length →
      acquireLoop maxR W (fuel + 1) now ts =
        acquireLoop maxR W fuel
          (now + ((purge W now ts).headD now + W - now + 10))
          (purge W now ts)) := by
  refine ⟨?_, ?_, ?_, ?_⟩
  · intro t ht hnot
    by_contra hcon
    exact hnot (mem_purge.mpr ⟨ht, by omega⟩)
  · intro t ht
    exact (mem_purge.mp ht).2
  · intro h
    simp only [acquireLoop]
    rw [if_pos h]
  · intro h
    simp only [acquireLoop]
    rw [if_neg (not_lt.mpr h)]

theorem acquire_step_behavior_witness :
    acquireLoop 2 1000 1 500 [100] = some ([100, 500], 500) :=
  (acquire_step_behavior 2 1000 500 0 [100]).2.2.1 (by decide)

/-- C8: `acquire` has no error outcome.  With `maxPermits ≥ 1` (and the
timestamp list within its capacity, as every reachable limiter state is) a
single caller's retry loop returns within two admission checks: either the
first check admits it, or after the waited `oldest + windowMs - now + 10`
milliseconds the oldest entry has aged out and the second check admits it.
With `maxPermits = 0` the admission check can never pass, so the loop never
returns no matter how much fuel it is given: the call blocks forever. -/
theorem acquire_no_error (maxR W now : Nat) (ts : List Nat)
    (hmax : 1 ≤ maxR) (hlen : ts.length ≤ maxR) :
    (acquireLoop maxR W 2 now ts).isSome = true ∧
    (∀ fuel now2 ts2, acquireLoop 0 W fuel now2 ts2 = none) := by
  constructor
  · by_cases h : (purge W now ts).length < maxR
    · simp only [acquireLoop]
      rw [if_pos h]
      rfl
    · have hklen : (purge W now ts).length ≤ maxR :=
        le_trans (length_purge_le W now ts) hlen
      obtain ⟨o, tl, hko⟩ : ∃ o tl, purge W now ts = o :: tl := by
        cases hk : purge W now ts with
        | nil => rw [hk] at h; simp at h; omega
        | cons o tl => exact ⟨o, tl, rfl⟩
      have ho : o ∈ purge W now ts := by rw [hko]; exact List.mem_cons_self o tl
      have hoW : now - o < W := (mem_purge.mp ho).2
      have hnew : now + ((purge W now ts).headD now + W - now + 10) =
          o + W + 10 := by
        rw [hko]
        simp only [List.headD_cons]
        omega
      have hdrop : purge W (o + W + 10) (o :: tl) = purge W (o + W + 10) tl := by
        unfold purge
        rw [List.filter_cons]
        have : ¬(o + W + 10 - o < W) := by omega
        simp [this]
      have hlt : (purge W (o + W + 10) (o :: tl)).length < maxR := by
        rw [hdrop]
        have h1 : (purge W (o + W + 10) tl).length ≤ tl.length :=
          length_purge_le _ _ _
        have h2 : tl.length + 1 ≤ maxR := by
          have := hko ▸ hklen
          simpa using this
        omega
      simp only [acquireLoop]
      rw [if_neg h, hnew, hko]
      rw [if_pos hlt]
      rfl
  · intro fuel
    induction fuel with
    | zero => intro now2 ts2; rfl
    | succ n ih =>
      intro now2 ts2
      rw [acquireLoop]
      rw [if_neg (by omega)]
      exact ih _ _

theorem acquire_no_error_witness :
    (acquireLoop 1 1000 2 5 [5]).isSome = true :=
  (acquire_no_error 1 1000 5 [5] (by decide) (by decide)).1

/-! ## Chunked parallel runner (cli.ts 50-62)

`jsSlice` is ECMAScript `Array.prototype.slice(start, end)` on `Int`
indices (negative indices count from the end, results are clamped).
`chunkAll` is `Promise.all` over a chunk of `Except`-valued item actions:
it yields the results in input-index order, or the error of a failing item
(the rejection that `await` rethrows).  `pcAuxE` is the runner loop
`for (let i = 0; i < items.length; i += chunkSize)` with explicit fuel:
`none` means the fuel was exhausted, i.e. the loop was still running.
`pcCallsAux` computes, with the same control flow, the list of items the
per-item function is invoked on.  `parallelChunked` starts the loop at
`i = 0` as the source does. -/

def jsSlice {α : Type} (xs : List α) (start stop : Int) : List α :=
  let len : Int := xs.length
  let s : Int := if start < 0 then max (len + start) 0 else min start len
  let e : Int := if stop < 0 then max (len + stop) 0 else min stop len
  (xs.drop s.toNat).take (e - s).toNat

def chunkAll {T R E : Type} (f : T → Except E R) : List T → Except E (List R)
  | [] => Except.ok []
  | x :: xs =>
    match f x with
    | Except.error e => Except.error e
    | Except.ok r =>
      match chunkAll f xs with
      | Except.error e => Except.error e
      | Except.ok rs => Except.ok (r :: rs)

def pcAuxE {T R E : Type} (f : T → Except E R) (k : Int) (items : List T) :
    Int → Nat → Option (Except E (List R))
  | _, 0 => none
  | i, fuel + 1 =>
    if i < (items.length : Int) then
      match chunkAll f (jsSlice items i (i + k)) with
      | Except.error e => some (Except.error e)
      | Except.ok rs =>
        match pcAuxE f k items (i + k) fuel with
        | none => none
        | some (Except.error e) => some (Except.error e)
        | some (Except.ok rest) => some (Except.ok (rs ++ rest))
    else some (Except.ok [])

def parallelChunked {T R E : Type} (f : T → Except E R) (k : Int)
    (items : List T) (fuel : Nat) : Option (Except E (List R)) :=
  pcAuxE f k items 0 fuel

def pcCallsAux {T : Type} (k : Int) (items : List T) :
    Int → Nat → Option (List T)
  | _, 0 => none
  | i, fuel + 1 =>
    if i < (items.length : Int) then
      (pcCallsAux k items (i + k) fuel).map
        (fun r => jsSlice items i (i + k) ++ r)
    else some []

def pcCalls {T : Type} (k : Int) (items : List T) (fuel : Nat) :
    Option (List T) :=
  pcCallsAux k items 0 fuel

lemma chunkAll_ok {T R E : Type} (g : T → R) :
    ∀ l : List T,
      chunkAll (fun x => (Except.ok (g x) : Except E R)) l =
        Except.ok (l.map g)
  | [] => rfl
  | x :: xs => by
    simp only [chunkAll, List.map_cons]
    rw [chunkAll_ok g xs]

lemma jsSlice_chunk {α : Type} (xs : List α) (i k : Int) (h0 : 0 ≤ i)
    (hi : i < (xs.length : Int)) (hk : 1 ≤ k) :
    jsSlice xs i (i + k) = (xs.drop i.toNat).take k.toNat := by
  simp only [jsSlice]
  have hs : (if i < 0 then max ((xs.length : Int) + i) 0
      else min i (xs.length : Int)) = i := by
    rw [if_neg (by omega)]
    omega
  have hstop : ¬(i + k < 0) := by omega
  rw [hs, if_neg hstop]
  by_cases hle : i + k ≤ (xs.length : Int)
  · have hmin : min (i + k) (xs.length : Int) = i + k := by omega
    rw [hmin]
    have : (i + k - i).toNat = k.toNat := by omega
    rw [this]
  · have hmin : min (i + k) (xs.length : Int) = (xs.length : Int) := by omega
    rw [hmin]
    have hlen : (xs.drop i.toNat).length = xs.length - i.toNat := by
      simp
    have h1 : ((xs.length : Int) - i).toNat = xs.length - i.toNat := by omega
    rw [h1]
    rw [List.take_of_length_le (by omega), List.take_of_length_le (by omega)]

/-- With a chunk size `k ≥ 1` and enough fuel, the runner over a
never-failing action `fun x => Except.ok (g x)` computes, from loop index
`i`, the map of `g` over the remaining items. -/
lemma pcAuxE_ok {T R E : Type} (g : T → R) (k : Int) (hk : 1 ≤ k) :
    ∀ (fuel : Nat) (items : List T) (i : Int), 0 ≤ i →
      items.length ≤ i.toNat + fuel →
      pcAuxE (fun x => (Except.ok (g x) : Except E R)) k items i (fuel + 1) =
        some (Except.ok ((items.drop i.toNat).map g)) := by
  intro fuel
  induction fuel with
  | zero =>
    intro items i h0 hle
    rw [pcAuxE]
    rw [if_neg (by omega)]
    rw [List.drop_eq_nil_of_le (by omega)]
    rfl
  | succ fuel ih =>
    intro items i h0 hle
    by_cases hi : i < (items.length : Int)
    · rw [pcAuxE, if_pos hi]
      rw [jsSlice_chunk items i k h0 hi hk, chunkAll_ok]
      have htn : (i + k).toNat = i.toNat + k.toNat := by omega
      have hrec := ih items (i + k) (by omega) (by omega)
      rw [hrec]
      have hsplit :
          ((items.drop i.toNat).take k.toNat).map g ++
              (items.drop (i + k).toNat).map g =
            (items.drop i.toNat).map g := by
        rw [htn, ← List.drop_drop, ← List.map_append,
          List.take_append_drop]
      simp only [hsplit]
    · rw [pcAuxE, if_neg hi]
      rw [List.drop_eq_nil_of_le (by omega)]
      rfl

/-- With a nonincreasing index step `k ≤ 0` and a nonempty item list the
loop guard `i < items.length` never becomes false: the runner consumes any
amount of fuel without returning. -/
lemma pcAuxE_nonterm {T R E : Type} (g : T → R) (k : Int) (items : List T)
    (hk : k ≤ 0) (hne : items ≠ []) :
    ∀ (fuel : Nat) (i : Int), i ≤ 0 →
      pcAuxE (fun x => (Except.ok (g x) : Except E R)) k items i fuel =
        none := by
  intro fuel
  induction fuel with
  | zero => intro i _; rfl
  | succ fuel ih =>
    intro i hi
    have hlen : 0 < items.length := List.length_pos.mpr hne
    rw [pcAuxE, if_pos (by omega)]
    rw [chunkAll_ok]
    rw [ih (i + k) (by omega)]

/-! ## Chunk structure, completion order and the in-flight trace

`chunksOf k items` is the sequence of chunks the loop processes:
`items.slice(i, i + k)` for `i = 0, k, 2k, …` (final chunk possibly
shorter).  `promiseAll f c ord` models `Promise.all(chunk.map(fn))`: the
result array has one slot per input index, each completing item writes its
result into its own slot, and `ord` is the order in which the items
complete (an arbitrary sequence of slot indices).  `chunkTrace`/
`runnerTrace` record start and finish events: within one chunk all items
are started (in index order, as `chunk.map(fn)` does) and then finish in
an arbitrary order `ord`; the next chunk's events strictly follow, since
the loop awaits the whole chunk before iterating. -/

def chunksOfAux {T : Type} (k : Nat) : Nat → List T → List (List T)
  | 0, _ => []
  | _ + 1, [] => []
  | fuel + 1, x :: xs =>
    (x :: xs).take k :: chunksOfAux k fuel ((x :: xs).drop k)

def chunksOf {T : Type} (k : Nat) (l : List T) : List (List T) :=
  chunksOfAux k l.length l

def promiseAll {T R : Type} (f : T → R) (ch : List T) (ord : List Nat) :
    List (Option R) :=
  ord.foldl (fun acc i => acc.set i (ch[i]?.map f))
    (List.replicate ch.length none)

inductive REv (T : Type) : Type
  | start : T → REv T
  | finish : T → REv T

def isStart {T : Type} : REv T → Bool
  | REv.start _ => true
  | REv.finish _ => false

def isFinish {T : Type} : REv T → Bool
  | REv.start _ => false
  | REv.finish _ => true

def startCount {T : Type} (tr : List (REv T)) : Nat := tr.countP isStart

def finCount {T : Type} (tr : List (REv T)) : Nat := tr.countP isFinish

def chunkTrace {T : Type} (c ord : List T) : List (REv T) :=
  c.map REv.start ++ ord.map REv.finish

def runnerTrace {T : Type} (k : Nat) (items : List T)
    (ords : List (List T)) : List (REv T) :=
  (List.zipWith chunkTrace (chunksOf k items) ords).flatten

lemma chunksOfAux_nil {T : Type} (k : Nat) :
    ∀ fuel, chunksOfAux k fuel ([] : List T) = [] := by
  intro fuel
  cases fuel with
  | zero => rfl
  | succ n => rfl

lemma chunksOfAux_flatten {T : Type} (k : Nat) (hk : 1 ≤ k) :
    ∀ (fuel : Nat) (l : List T), l.length ≤ fuel →
      (chunksOfAux k fuel l).flatten = l := by
  intro fuel
  induction fuel with
  | zero =>
    intro l hl
    have : l = [] := List.length_eq_zero.mp (by omega)
    rw [this]
    rfl
  | succ fuel ih =>
    intro l hl
    cases l with
    | nil => rfl
    | cons x xs =>
      rw [chunksOfAux, List.flatten_cons]
      rw [ih ((x :: xs).drop k)
        (by simp only [List.length_drop, List.length_cons] at hl ⊢; omega)]
      exact List.take_append_drop k (x :: xs)

lemma chunksOfAux_length_le {T : Type} (k : Nat) :
    ∀ (fuel : Nat) (l : List T) (c : List T),
      c ∈ chunksOfAux k fuel l → c.length ≤ k := by
  intro fuel
  induction fuel with
  | zero => intro l c hc; simp [chunksOfAux] at hc
  | succ fuel ih =>
    intro l c hc
    cases l with
    | nil => simp [chunksOfAux] at hc
    | cons x xs =>
      rw [chunksOfAux] at hc
      rcases List.mem_cons.mp hc with h | h
      · rw [h]
        simpa using List.length_take_le k (x :: xs)
      · exact ih _ c h

lemma chunksOfAux_dropLast_length {T : Type} (k : Nat) :
    ∀ (fuel : Nat) (l : List T) (c : List T),
      c ∈ (chunksOfAux k fuel l).dropLast → c.length = k := by
  intro fuel
  induction fuel with
  | zero => intro l c hc; simp [chunksOfAux] at hc
  | succ fuel ih =>
    intro l c hc
    cases l with
    | nil => simp [chunksOfAux] at hc
    | cons x xs =>
      rw [chunksOfAux] at hc
      cases hrest : chunksOfAux k fuel ((x :: xs).drop k) with
      | nil => rw [hrest] at hc; simp at hc
      | cons r rs =>
        rw [hrest, List.dropLast_cons_of_ne_nil (by simp)] at hc
        rcases List.mem_cons.mp hc with h | h
        · have hne : (x :: xs).drop k ≠ [] := by
            intro hdrop
            rw [hdrop, chunksOfAux_nil] at hrest
            exact List.noConfusion hrest
          have hklen : k < (x :: xs).length := by
            by_contra hcon
            exact hne (List.drop_eq_nil_of_le (by omega))
          rw [h, List.length_take]
          omega
        · exact ih _ c (hrest ▸ h)

lemma foldl_set_getElem_opt {T R : Type} (f : T → R) (ch : List T) :
    ∀ (ord : List Nat) (acc : List (Option R)) (j : Nat),
      (List.foldl (fun a i => a.set i (ch[i]?.map f)) acc ord)[j]? =
        if j ∈ ord ∧ j < acc.length then some (ch[j]?.map f) else acc[j]? := by
  intro ord
  induction ord with
  | nil =>
    intro acc j
    simp
  | cons i rest ih =>
    intro acc j
    rw [List.foldl_cons, ih]
    rw [List.length_set]
    by_cases hjr : j ∈ rest ∧ j < acc.length
    · rw [if_pos hjr, if_pos ⟨List.mem_cons_of_mem i hjr.1, hjr.2⟩]
    · rw [if_neg hjr]
      by_cases hij : i = j
      · subst hij
        by_cases hlt : i < acc.length
        · rw [List.getElem?_set_self (by omega),
            if_pos ⟨List.mem_cons_self i rest, hlt⟩]
        · rw [if_neg (by omega)]
          rw [List.set_eq_of_length_le (by omega)]
      · rw [List.getElem?_set_ne hij]
        have : ¬(j ∈ i :: rest ∧ j < acc.length) := by
          intro hcon
          rcases List.mem_cons.mp hcon.1 with h | h
          · exact hij h.symm
          · exact hjr ⟨h, hcon.2⟩
        rw [if_neg this]

/-- The `Promise.all` slot model is completion-order independent: whenever
every index of the chunk occurs in the completion order `ord`, the result
array is the in-order map of the action over the chunk. -/
lemma promiseAll_complete {T R : Type} (f : T → R) (ch : List T)
    (ord : List Nat) (hcov : ∀ j, j < ch.length → j ∈ ord) :
    promiseAll f ch ord = ch.map (fun x => some (f x)) := by
  apply List.ext_getElem?
  intro j
  unfold promiseAll
  rw [foldl_set_getElem_opt, List.length_replicate]
  by_cases hj : j < ch.length
  · rw [if_pos ⟨hcov j hj, hj⟩]
    rw [List.getElem?_map, List.getElem?_eq_getElem hj]
    rfl
  · rw [if_neg (by omega)]
    rw [List.getElem?_eq_none (by simpa using hj),
      List.getElem?_eq_none (by simp; omega)]

lemma startCount_starts {T : Type} (l : List T) :
    startCount (l.map REv.start) = l.length := by
  unfold startCount
  rw [List.countP_map]
  simp [Function.comp, isStart]

lemma finCount_starts {T : Type} (l : List T) :
    finCount (l.map REv.start) = 0 := by
  unfold finCount
  rw [List.countP_map]
  simp [Function.comp, isFinish]

lemma startCount_finishes {T : Type} (l : List T) :
    startCount (l.map REv.finish) = 0 := by
  unfold startCount
  rw [List.countP_map]
  simp [Function.comp, isStart]

lemma finCount_finishes {T : Type} (l : List T) :
    finCount (l.map REv.finish) = l.length := by
  unfold finCount
  rw [List.countP_map]
  simp [Function.comp, isFinish]

/-- In any interleaving trace of the chunk loop (all of a chunk started,
then finished in an arbitrary completion order, then the next chunk), at
every instant the number of started-but-unfinished item actions is at most
the chunk bound `k`, provided every chunk has at most `k` items. -/
lemma trace_inflight_bound {T : Type} (k : Nat) :
    ∀ (cs os : List (List T)),
      List.Forall₂ (fun ch o => o.length = ch.length) cs os →
      (∀ ch ∈ cs, ch.length ≤ k) →
      ∀ n, startCount (((List.zipWith chunkTrace cs os).flatten).take n) ≤
        finCount (((List.zipWith chunkTrace cs os).flatten).take n) + k := by
  intro cs os hf
  induction hf with
  | nil =>
    intro _ n
    simp [startCount, finCount]
  | cons hco htail ih =>
    intro hbound n
    rename_i ch o cs' os'
    have hchk : ch.length ≤ k := hbound ch (List.mem_cons_self ch cs')
    rw [List.zipWith_cons_cons, List.flatten_cons,
      List.take_append_eq_append_take]
    unfold startCount finCount
    rw [List.countP_append, List.countP_append]
    have hseg := ih (fun c2 hc2 => hbound c2 (List.mem_cons_of_mem ch hc2))
      (n - (chunkTrace ch o).length)
    unfold startCount finCount at hseg
    by_cases hn : n < (chunkTrace ch o).length
    · have hz : n - (chunkTrace ch o).length = 0 := by omega
      rw [hz]
      simp only [List.take_zero, List.countP_nil]
      have h1 : ((chunkTrace ch o).take n).countP isStart ≤
          (chunkTrace ch o).countP isStart :=
        (List.take_sublist n (chunkTrace ch o)).countP_le isStart
      have h2 : (chunkTrace ch o).countP isStart = ch.length := by
        unfold chunkTrace
        rw [List.countP_append]
        have := startCount_starts ch
        have := startCount_finishes o
        unfold startCount at *
        omega
      omega
    · rw [List.take_of_length_le (by omega)]
      have h1 : (chunkTrace ch o).countP isStart = ch.length := by
        unfold chunkTrace
        rw [List.countP_append]
        have := startCount_starts ch
        have := startCount_finishes o
        unfold startCount at *
        omega
      have h2 : (chunkTrace ch o).countP isFinish = ch.length := by
        unfold chunkTrace
        rw [List.countP_append]
        have := finCount_starts ch
        have := finCount_finishes o
        unfold finCount at *
        omega
      omega

/-- C2: for every item list, never-failing per-item action and chunk size
`k ≥ 1`, the runner (with enough fuel for its loop) returns
`some (ok (items.map g))`: one result per input item, the i-th output
being the action's value on the i-th input — the sequential map.  The
third conjunct is completion-order independence at the `Promise.all`
level: whatever order `ord` the items of a chunk complete in, each item
writes its own index slot, so any completion order covering all indices
yields the in-order map. -/
theorem runner_order_preservation {T R E : Type} (g : T → R) (k : Int)
    (items ch : List T) (ord : List Nat) (hk : 1 ≤ k)
    (hcov : ∀ j, j < ch.length → j ∈ ord) :
    parallelChunked (fun x => (Except.ok (g x) : Except E R)) k items
      (items.length + 1) = some (Except.ok (items.map g)) ∧
    (items.map g).length = items.length ∧
    promiseAll g ch ord = ch.map (fun x => some (g x)) := by
  refine ⟨?_, List.length_map items g, promiseAll_complete g ch ord hcov⟩
  unfold parallelChunked
  have h := pcAuxE_ok (E := E) g k hk items.length items 0 (by omega) (by simp)
  simpa using h

theorem runner_order_preservation_witness :
    parallelChunked (fun x => (Except.ok (x + 1) : Except String Nat)) 2
      [10, 20, 30] 4 = some (Except.ok [11, 21, 31]) ∧
    ([10, 20, 30].map (fun x => x + 1)).length = 3 ∧
    promiseAll (fun x => x + 1) [10, 20] [1, 0] = [some 11, some 21] :=
  runner_order_preservation (fun x => x + 1) 2 [10, 20, 30] [10, 20] [1, 0]
    (by decide) (by decide)

/-- C9: with chunk size `k ≥ 1` the runner processes exactly the
consecutive chunks `chunksOf k items` (whose concatenation is the input,
each of length at most `k`, all but the last of length exactly `k`); its
result is the chunk-by-chunk concatenation, the loop awaiting each chunk
in full before the next one starts; and in the start/finish event trace —
all items of a chunk started, then finished in an arbitrary completion
order, then the next chunk — at most `k` item actions are ever in flight
simultaneously. -/
theorem runner_chunk_barrier {T R E : Type} (g : T → R) (k : Nat)
    (items : List T) (ords : List (List T)) (hk : 1 ≤ k)
    (hords : List.Forall₂ (fun ch o => o.length = ch.length)
      (chunksOf k items) ords) :
    (chunksOf k items).flatten = items ∧
    (∀ ch ∈ chunksOf k items, ch.length ≤ k) ∧
    (∀ ch ∈ (chunksOf k items).dropLast, ch.length = k) ∧
    parallelChunked (fun x => (Except.ok (g x) : Except E R)) (k : Int)
      items (items.length + 1) =
      some (Except.ok (((chunksOf k items).map
        (fun ch => ch.map g)).flatten)) ∧
    (∀ n, startCount ((runnerTrace k items ords).take n) ≤
      finCount ((runnerTrace k items ords).take n) + k) := by
  have hflat : (chunksOf k items).flatten = items :=
    chunksOfAux_flatten k hk items.length items (le_refl _)
  refine ⟨hflat, ?_, ?_, ?_, ?_⟩
  · intro ch hch
    exact chunksOfAux_length_le k items.length items ch hch
  · intro ch hch
    exact chunksOfAux_dropLast_length k items.length items ch hch
  · unfold parallelChunked
    have h := pcAuxE_ok (E := E) g (k : Int) (by omega) items.length items 0
      (by omega) (by simp)
    rw [← List.map_flatten, hflat]
    simpa using h
  · exact trace_inflight_bound k (chunksOf k items) ords hords
      (fun ch hch => chunksOfAux_length_le k items.length items ch hch)

theorem runner_chunk_barrier_witness :
    (chunksOf 2 [1, 2, 3, 4, 5]).flatten = [1, 2, 3, 4, 5] ∧
    startCount ((runnerTrace 2 [1, 2, 3, 4, 5]
        [[2, 1], [3, 4], [5]]).take 3) ≤
      finCount ((runnerTrace 2 [1, 2, 3, 4, 5]
        [[2, 1], [3, 4], [5]]).take 3) + 2 := by
  have h := runner_chunk_barrier (E := String) (fun x => x) 2 [1, 2, 3, 4, 5]
    [[2, 1], [3, 4], [5]] (by decide)
    (List.Forall₂.cons rfl (List.Forall₂.cons rfl
      (List.Forall₂.cons rfl List.Forall₂.nil)))
  exact ⟨h.1, h.2.2.2.2 3⟩

/-- C10: outside the positive-chunk-size precondition the runner behaves
as follows.  On an empty item list the loop guard `0 < items.length` is
false at once, so for any chunk size it returns the empty result having
invoked the per-item action on no item at all (the call list is empty).
On a nonempty item list with `chunkSize ≤ 0` the index `i` never grows
past `0 < items.length`, so the loop never terminates: the runner consumes
any amount of fuel and never returns. -/
theorem parallelChunked_degenerate {T R E : Type} (g : T → R)
    (f : T → Except E R) (k k2 : Int) (items : List T) (fuel : Nat)
    (hk : k ≤ 0) (hne : items ≠ []) :
    parallelChunked f k2 ([] : List T) (fuel + 1) = some (Except.ok []) ∧
    pcCalls k2 ([] : List T) (fuel + 1) = some [] ∧
    parallelChunked (fun x => (Except.ok (g x) : Except E R)) k items
      fuel = none := by
  refine ⟨?_, ?_, ?_⟩
  · unfold parallelChunked
    rw [pcAuxE, if_neg (by simp)]
  · unfold pcCalls
    rw [pcCallsAux, if_neg (by simp)]
  · unfold parallelChunked
    exact pcAuxE_nonterm g k items hk hne fuel 0 (le_refl 0)

theorem parallelChunked_degenerate_witness :
    parallelChunked (fun x => (Except.ok x : Except String Nat)) 3
      ([] : List Nat) 1 = some (Except.ok []) ∧
    parallelChunked (fun x => (Except.ok x : Except String Nat)) 0
      [7] 5 = none := by
  have h := parallelChunked_degenerate (fun x : Nat => x)
    (fun x => (Except.ok x : Except String Nat)) 0 3 [7] 5
    (by decide) (by decide)
  exact ⟨h.1, h.2.2⟩

/-! ## Pagination accumulator (cli.ts 119-150)

`fetchAllUsers` and `fetchAllOrgs` are the same
`while (true) { await limiter.acquire(); fetchPage(after); push items;
if (!listMetadata.after) break; after = listMetadata.after }` loop, with
different limiters and remotes.  The remote collection is modelled as a
finite cursor chain: a nonempty list of pages, page `i` carrying its items
and the next cursor `some (i+1)` (or none on the last page).  `PEv`
records the side-effecting calls in order: one `acq` (limiter `acquire`)
and one `fetch` (with the cursor passed) per iteration.  The fuel is the
page count; `none` means the chain was longer than the fuel. -/

inductive PEv : Type
  | acq : PEv
  | fetch : Option Nat → PEv
deriving DecidableEq, Repr

def isAcq : PEv → Bool
  | PEv.acq => true
  | PEv.fetch _ => false

def isFetch : PEv → Bool
  | PEv.acq => false
  | PEv.fetch _ => true

def fetchPageChain {α : Type} (pages : List (List α)) (cur : Option Nat) :
    List α × Option Nat :=
  let i := cur.getD 0
  (pages.getD i [], if i + 1 < pages.length then some (i + 1) else none)

def drainAux {α : Type} (pages : List (List α)) :
    Option Nat → Nat → Option (List α × List PEv)
  | _, 0 => none
  | cur, fuel + 1 =>
    let pr := fetchPageChain pages cur
    match pr.2 with
    | none => some (pr.1, [PEv.acq, PEv.fetch cur])
    | some nxt =>
      (drainAux pages (some nxt) fuel).map
        (fun rest => (pr.1 ++ rest.1, PEv.acq :: PEv.fetch cur :: rest.2))

def fetchAllUsers {α : Type} (pages : List (List α)) :
    Option (List α × List PEv) :=
  drainAux pages none pages.length

def fetchAllOrgs {α : Type} (pages : List (List α)) :
    Option (List α × List PEv) :=
  drainAux pages none pages.length

def altAcqFetch : List PEv → Bool
  | [] => true
  | PEv.acq :: PEv.fetch _ :: rest => altAcqFetch rest
  | _ => false

lemma drainAux_spec {α : Type} (pages : List (List α)) :
    ∀ (fuel i : Nat) (cur : Option Nat), i < pages.length →
      pages.length ≤ i + fuel → cur.getD 0 = i →
      ∃ tr, drainAux pages cur fuel =
          some ((pages.drop i).flatten, tr) ∧
        tr.countP isAcq = pages.length - i ∧
        tr.countP isFetch = pages.length - i ∧
        altAcqFetch tr = true := by
  intro fuel
  induction fuel with
  | zero => intro i cur hi hle _; omega
  | succ fuel ih =>
    intro i cur hi hle hcur
    have hitems : (fetchPageChain pages cur).1 = pages.getD i [] := by
      simp [fetchPageChain, hcur]
    have hdropi : pages.drop i = pages[i] :: pages.drop (i + 1) :=
      List.drop_eq_getElem_cons hi
    have hgetd : pages.getD i [] = pages[i] := List.getD_eq_getElem pages [] hi
    by_cases hlast : i + 1 < pages.length
    · have hnext : (fetchPageChain pages cur).2 = some (i + 1) := by
        simp [fetchPageChain, hcur, hlast]
      obtain ⟨tr, htr, hac, hfc, halt⟩ :=
        ih (i + 1) (some (i + 1)) hlast (by omega) rfl
      have e1 : (if isAcq (PEv.fetch cur) = true then 1 else 0) = 0 := rfl
      have e2 : (if isAcq PEv.acq = true then 1 else 0) = 1 := rfl
      have e3 : (if isFetch (PEv.fetch cur) = true then 1 else 0) = 1 := rfl
      have e4 : (if isFetch PEv.acq = true then 1 else 0) = 0 := rfl
      refine ⟨PEv.acq :: PEv.fetch cur :: tr, ?_, ?_, ?_, ?_⟩
      · rw [drainAux]
        rw [hnext]
        simp only [htr, Option.map]
        rw [hitems, hgetd, hdropi]
        rw [List.flatten_cons]
      · simp only [List.countP_cons]
        rw [e1, e2, hac]
        omega
      · simp only [List.countP_cons]
        rw [e3, e4, hfc]
        omega
      · rw [altAcqFetch]
        exact halt
    · have hnext : (fetchPageChain pages cur).2 = none := by
        simp [fetchPageChain, hcur, hlast]
      have hi1 : pages.length = i + 1 := by omega
      have c1 : List.countP isAcq [PEv.acq, PEv.fetch cur] = 1 := rfl
      have c2 : List.countP isFetch [PEv.acq, PEv.fetch cur] = 1 := rfl
      refine ⟨[PEv.acq, PEv.fetch cur], ?_, by rw [c1]; omega,
        by rw [c2]; omega, rfl⟩
      rw [drainAux]
      rw [hnext]
      rw [hitems, hgetd, hdropi]
      have : pages.drop (i + 1) = [] := List.drop_eq_nil_of_le (by omega)
      rw [this]
      simp

/-- C3: for a remote collection forming a finite cursor chain of `m ≥ 1`
pages, both pagination accumulators (`fetchAllUsers` and `fetchAllOrgs`,
which run the same loop against their respective limiter and list
endpoint) terminate and return the concatenation of all pages' items in
page order, having called `acquire` exactly `m` times and the page fetch
exactly `m` times, the trace strictly alternating acquire-then-fetch so
that every fetch is preceded by its own acquire. -/
theorem pagination_drain_spec {α : Type} (pages : List (List α))
    (hne : pages ≠ []) :
    (fetchAllUsers pages).map Prod.fst = some pages.flatten ∧
    (fetchAllUsers pages).map (fun pr => pr.2.countP isAcq) =
      some pages.length ∧
    (fetchAllUsers pages).map (fun pr => pr.2.countP isFetch) =
      some pages.length ∧
    (fetchAllUsers pages).map (fun pr => altAcqFetch pr.2) = some true ∧
    fetchAllOrgs pages = fetchAllUsers pages := by
  have hlen : 0 < pages.length := List.length_pos.mpr hne
  obtain ⟨tr, htr, hac, hfc, halt⟩ :=
    drainAux_spec pages pages.length 0 none hlen (by omega) rfl
  have husers : fetchAllUsers pages = some (pages.flatten, tr) := by
    unfold fetchAllUsers
    rw [htr]
    simp
  refine ⟨?_, ?_, ?_, ?_, rfl⟩
  · rw [husers]; rfl
  · rw [husers]
    show some (tr.countP isAcq) = some pages.length
    rw [hac, Nat.sub_zero]
  · rw [husers]
    show some (tr.countP isFetch) = some pages.length
    rw [hfc, Nat.sub_zero]
  · rw [husers]
    show some (altAcqFetch tr) = some true
    rw [halt]

theorem pagination_drain_spec_witness :
    (fetchAllUsers [[1, 2], [3]]).map Prod.fst = some [1, 2, 3] ∧
    (fetchAllUsers [[1, 2], [3]]).map (fun pr => pr.2.countP isAcq) =
      some 2 :=
  ⟨(pagination_drain_spec [[1, 2], [3]] (by decide)).1,
    (pagination_drain_spec [[1, 2], [3]] (by decide)).2.1⟩

/-! ## deleteAllOrgs failure classification (cli.ts 383-398)

The catch block computes `msg = error.message?.toLowerCase() || ""` and
tallies the deletion as skipped when `msg` includes one of four fixed
phrases, as failed otherwise.  `lowerStr` is `toLowerCase`, `containsSub`
is `String.prototype.includes` (substring test), and `cantBeDeleted`
spells the second phrase, whose third letter list is built with
`Char.ofNat 39` (the ASCII apostrophe). -/

def lowerStr (s : String) : String :=
  String.mk (s.data.map Char.toLower)

def containsSub (hay needle : String) : Bool :=
  hay.data.tails.any (fun t => needle.data.isPrefixOf t)

def cantBeDeleted : String :=
  String.mk (['c', 'a', 'n', Char.ofNat 39, 't'] ++ " be deleted".data)

def nonDeletablePhrases : List String :=
  ["cannot be deleted", cantBeDeleted, "cannot delete", "unable to delete"]

def isSkipMsg (msg : String) : Bool :=
  nonDeletablePhrases.any (fun p => containsSub (lowerStr msg) p)

inductive DelOutcome : Type
  | deleted : DelOutcome
  | skipped : DelOutcome
  | failed : DelOutcome
deriving DecidableEq, Repr

def classifyDeleteOrg (res : Except String Unit) : DelOutcome :=
  match res with
  | Except.ok _ => DelOutcome.deleted
  | Except.error e =>
    if isSkipMsg e then DelOutcome.skipped else DelOutcome.failed

lemma containsSub_iff (hay needle : String) :
    containsSub hay needle = true ↔ needle.data <:+: hay.data := by
  unfold containsSub
  rw [List.any_eq_true]
  constructor
  · rintro ⟨t, ht, hp⟩
    exact List.infix_iff_prefix_suffix.mpr
      ⟨t, ( List.isPrefixOf_iff_prefix.mp hp), (List.mem_tails _ _).mp ht⟩
  · intro hinf
    obtain ⟨t, hpre, hsuf⟩ := List.infix_iff_prefix_suffix.mp hinf
    exact ⟨t, (List.mem_tails _ _).mpr hsuf,
      ( List.isPrefixOf_iff_prefix.mpr hpre)⟩

/-- C7: in `deleteAllOrgs`, a deletion error is tallied as skipped exactly
when its lowercased message contains one of the four fixed non-deletable
phrases as a substring, and as failed otherwise; in particular the message
`Organization cannot be deleted` yields a skip and `network timeout`
yields a failure, while a successful deletion is tallied as deleted. -/
theorem skip_classification :
    classifyDeleteOrg (Except.error "Organization cannot be deleted") =
      DelOutcome.skipped ∧
    classifyDeleteOrg (Except.error "network timeout") =
      DelOutcome.failed ∧
    classifyDeleteOrg (Except.ok ()) = DelOutcome.deleted ∧
    (∀ msg, isSkipMsg msg = true ↔
      ∃ p ∈ nonDeletablePhrases, p.data <:+: (lowerStr msg).data) ∧
    (∀ msg, classifyDeleteOrg (Except.error msg) =
      if isSkipMsg msg then DelOutcome.skipped else DelOutcome.failed) := by
  refine ⟨by decide, by decide, rfl, ?_, fun msg => rfl⟩
  intro msg
  unfold isSkipMsg
  rw [List.any_eq_true]
  simp only [containsSub_iff]

/-! ## The listUsers detail-fetch call site (cli.ts 294-301) and the
write-action call sites (cli.ts 375-401)

`listUsers` passes `(m) => { await acquire(); return getUser(m.userId) }`
to the runner with chunk size 100 and no try/catch: a rejecting `getUser`
rejects the chunk's `Promise.all` and the rejection escapes
`parallelChunked`.  The write-action call sites such as `deleteAllOrgs`
wrap their remote call in try/catch, so their per-item action always
resolves, with the outcome recorded by the catch-side classification. -/

structure Membership : Type where
  id : String
  userId : String
deriving DecidableEq, Repr

structure User : Type where
  id : String
  email : String
deriving DecidableEq, Repr

structure Org : Type where
  id : String
  name : String
deriving DecidableEq, Repr

def listUsersDetailAction (getUser : String → Except String User)
    (m : Membership) : Except String User :=
  getUser m.userId

def listUsersDetails (getUser : String → Except String User)
    (ms : List Membership) : Option (Except String (List User)) :=
  parallelChunked (listUsersDetailAction getUser) 100 ms (ms.length + 1)

def isOkList {E R : Type} : Option (Except E (List R)) → Bool
  | some (Except.ok _) => true
  | _ => false

def deleteOrgAction (remote : String → Except String Unit) (org : Org) :
    DelOutcome :=
  classifyDeleteOrg (remote org.id)

/-- C4 counterexample: the `listUsers` detail-fetch call site does not
convert per-item failures into outcomes.  With a single membership whose
`getUser` fails with `network timeout`, the runner's result is that error
itself — the failure propagates out of `parallelChunked` and no per-item
outcome list is produced, contradicting the claim that every call site
converts failures and that the runner always returns one outcome per
item. -/
theorem runner_error_escape_cex :
    listUsersDetails (fun _ => Except.error "network timeout")
      [⟨"m1", "u1"⟩] = some (Except.error "network timeout") ∧
    isOkList (listUsersDetails (fun _ => Except.error "network timeout")
      [⟨"m1", "u1"⟩]) = false := by
  constructor
  · rfl
  · rfl

/-- C4 amended: at the write-action call sites the per-item action wraps
the remote call and converts any failure into a per-item outcome (modelled
on `deleteAllOrgs`: the action total, classifying each remote result), so
no error escapes the runner there and it returns exactly one outcome per
input item, for every behavior of the remote. -/
theorem call_site_error_containment (remote : String → Except String Unit)
    (orgs : List Org) :
    parallelChunked
      (fun o => (Except.ok (deleteOrgAction remote o) :
        Except String DelOutcome)) 45 orgs (orgs.length + 1) =
      some (Except.ok (orgs.map (deleteOrgAction remote))) ∧
    (orgs.map (deleteOrgAction remote)).length = orgs.length := by
  refine ⟨?_, List.length_map orgs _⟩
  unfold parallelChunked
  have h := pcAuxE_ok (E := String) (deleteOrgAction remote) 45 (by omega)
    orgs.length orgs 0 (by omega) (by simp)
  simpa using h

/-! ## Bulk command console output

Each command's output during and after its batch is modelled as the list
of lines printed, as a function of the per-item inputs and remote results
(completion order only permutes the item lines, never the final line, and
the counters are order-independent tallies).  `createOrgs` (cli.ts
174-197) and `createUsers` (cli.ts 199-233) print only per-item lines and
no final tally.  `createOrgMembership` (cli.ts 235-271), `deleteAllUsers`
(cli.ts 330-348), `deleteAllOrgs` (cli.ts 370-406) and
`deleteAllMemberships` (cli.ts 424-442) end with a single `Done - ` tally
line, `deleteAllOrgs` appending its skipped and failed counts only when
they are nonzero, the other two their failed count only when nonzero.
`isTally` recognizes a tally line by its `Done - ` lead. -/

def isTally (s : String) : Bool :=
  List.isPrefixOf "Done - ".data s.data

def isOkE {E A : Type} : Except E A → Bool
  | Except.ok _ => true
  | Except.error _ => false

def createOrgLine (i : Nat) (r : Except String Org) : String :=
  match r with
  | Except.ok org =>
    "Created org \"" ++ (org.name ++ ("\" (" ++ (org.id ++ ")")))
  | Except.error m =>
    "Failed to create org \"" ++ (Nat.repr i ++ ("\": " ++ m))

def createOrgsLines (rs : List (Nat × Except String Org)) : List String :=
  rs.map (fun p => createOrgLine p.1 p.2)

def createUserLine (email : String) (r : Except String User) : String :=
  match r with
  | Except.ok u => "Created " ++ (email ++ (" (" ++ (u.id ++ ")")))
  | Except.error m => "Failed to create " ++ (email ++ (": " ++ m))

def createUsersLines (rs : List (String × Except String User)) :
    List String :=
  rs.map (fun p => createUserLine p.1 p.2)

def addMembershipLine (org : Org) (r : Except String Unit) : String :=
  match r with
  | Except.ok _ =>
    "Added user to \"" ++ (org.name ++ ("\" (" ++ (org.id ++ ")")))
  | Except.error m =>
    "Failed to add user to \"" ++ (org.name ++ ("\": " ++ m))

def addAllMembershipsLines (rs : List (Org × Except String Unit)) :
    List String :=
  rs.map (fun p => addMembershipLine p.1 p.2) ++
    ["Done - added user to " ++
      (Nat.repr (rs.countP (fun p => isOkE p.2)) ++ " organizations")]

def deleteUserLine (u : User) (r : Except String Unit) : String :=
  match r with
  | Except.ok _ => "Deleted " ++ u.email
  | Except.error m => "Failed to delete " ++ (u.email ++ (": " ++ m))

def delUsersSummary (deleted failed : Nat) : String :=
  "Done - deleted " ++ (Nat.repr deleted ++ (" users" ++
    (if 0 < failed then ", " ++ (Nat.repr failed ++ " failed") else "")))

def deleteAllUsersLines (rs : List (User × Except String Unit)) :
    List String :=
  rs.map (fun p => deleteUserLine p.1 p.2) ++
    [delUsersSummary (rs.countP (fun p => isOkE p.2))
      (rs.countP (fun p => !isOkE p.2))]

def deleteMembershipLine (m : Membership) (r : Except String Unit) :
    String :=
  match r with
  | Except.ok _ => "Deleted membership " ++ m.id
  | Except.error msg =>
    "Failed to delete membership " ++ (m.id ++ (": " ++ msg))

def delMembershipsSummary (deleted failed : Nat) : String :=
  "Done - deleted " ++ (Nat.repr deleted ++ (" memberships" ++
    (if 0 < failed then ", " ++ (Nat.repr failed ++ " failed") else "")))

def deleteAllMembershipsLines (rs : List (Membership × Except String Unit)) :
    List String :=
  rs.map (fun p => deleteMembershipLine p.1 p.2) ++
    [delMembershipsSummary (rs.countP (fun p => isOkE p.2))
      (rs.countP (fun p => !isOkE p.2))]

def deleteOrgLine (org : Org) (r : Except String Unit) : String :=
  match classifyDeleteOrg r with
  | DelOutcome.deleted =>
    "Deleted org \"" ++ (org.name ++ ("\" (" ++ (org.id ++ ")")))
  | DelOutcome.skipped =>
    "Skipped org \"" ++
      (org.name ++ ("\" (" ++ (org.id ++ ") - cannot be deleted")))
  | DelOutcome.failed =>
    "Failed to delete org \"" ++ (org.name ++ ("\" (" ++ (org.id ++
      ("): " ++ (match r with
        | Except.error m => m
        | Except.ok _ => "")))))

def delOrgsSummary (deleted skipped failed : Nat) : String :=
  "Done - deleted " ++ (Nat.repr deleted ++ (" organizations" ++
    ((if 0 < skipped then ", " ++ (Nat.repr skipped ++ " skipped")
      else "") ++
     (if 0 < failed then ", " ++ (Nat.repr failed ++ " failed")
      else ""))))

def deleteAllOrgsLines (rs : List (Org × Except String Unit)) :
    List String :=
  rs.map (fun p => deleteOrgLine p.1 p.2) ++
    [delOrgsSummary
      (rs.countP (fun p =>
        decide (classifyDeleteOrg p.2 = DelOutcome.deleted)))
      (rs.countP (fun p =>
        decide (classifyDeleteOrg p.2 = DelOutcome.skipped)))
      (rs.countP (fun p =>
        decide (classifyDeleteOrg p.2 = DelOutcome.failed)))]

lemma isPrefixOf_append_of_le (l1 l2 l3 : List Char)
    (h : l1.length ≤ l2.length) :
    l1.isPrefixOf (l2 ++ l3) = l1.isPrefixOf l2 := by
  induction l1 generalizing l2 with
  | nil => simp [List.isPrefixOf]
  | cons a as ih =>
    cases l2 with
    | nil => simp at h
    | cons b bs =>
      simp only [List.cons_append, List.isPrefixOf, List.append_eq]
      rw [ih bs (by simp only [List.length_cons] at h; omega)]

lemma isTally_append (a b : String) (h : 7 ≤ a.length) :
    isTally (a ++ b) = isTally a := by
  unfold isTally
  rw [String.data_append]
  refine isPrefixOf_append_of_le _ _ _ ?_
  have h1 : a.length = a.data.length := rfl
  have h2 : ("Done - ".data).length = 7 := rfl
  omega

lemma digitChar_isDigit (n : Nat) (h : n < 10) :
    (Nat.digitChar n).isDigit = true := by
  interval_cases n <;> decide

lemma toDigitsCore_digits :
    ∀ (fuel n : Nat) (acc : List Char), (∀ c ∈ acc, c.isDigit = true) →
      ∀ c ∈ Nat.toDigitsCore 10 fuel n acc, c.isDigit = true := by
  intro fuel
  induction fuel with
  | zero =>
    intro n acc hacc c hc
    exact hacc c hc
  | succ fuel ih =>
    intro n acc hacc c hc
    rw [Nat.toDigitsCore] at hc
    have hdig : ∀ c2 ∈ Nat.digitChar (n % 10) :: acc, c2.isDigit = true := by
      intro c2 hc2
      rcases List.mem_cons.mp hc2 with h | h
      · rw [h]
        exact digitChar_isDigit _ (Nat.mod_lt _ (by omega))
      · exact hacc c2 h
    by_cases hz : n / 10 = 0
    · rw [if_pos hz] at hc
      exact hdig c hc
    · rw [if_neg hz] at hc
      exact ih (n / 10) _ hdig c hc

lemma repr_digits (n : Nat) : ∀ c ∈ (Nat.repr n).data, c.isDigit = true := by
  intro c hc
  have hd : (Nat.repr n).data = Nat.toDigitsCore 10 (n + 1) n [] := rfl
  rw [hd] at hc
  exact toDigitsCore_digits (n + 1) n [] (by simp) c hc

lemma char_not_mem_repr (n : Nat) (c : Char) (hc : c.isDigit = false) :
    c ∉ (Nat.repr n).data := by
  intro hmem
  have := repr_digits n c hmem
  rw [hc] at this
  exact Bool.noConfusion this

lemma isTally_createOrgLine (i : Nat) (r : Except String Org) :
    isTally (createOrgLine i r) = false := by
  cases r with
  | ok org =>
    simp only [createOrgLine]
    rw [isTally_append _ _ (by decide)]
    decide
  | error m =>
    simp only [createOrgLine]
    rw [isTally_append _ _ (by decide)]
    decide

lemma isTally_createUserLine (email : String) (r : Except String User) :
    isTally (createUserLine email r) = false := by
  cases r with
  | ok u =>
    simp only [createUserLine]
    rw [isTally_append _ _ (by decide)]
    decide
  | error m =>
    simp only [createUserLine]
    rw [isTally_append _ _ (by decide)]
    decide

lemma isTally_addMembershipLine (org : Org) (r : Except String Unit) :
    isTally (addMembershipLine org r) = false := by
  cases r with
  | ok u =>
    simp only [addMembershipLine]
    rw [isTally_append _ _ (by decide)]
    decide
  | error m =>
    simp only [addMembershipLine]
    rw [isTally_append _ _ (by decide)]
    decide

lemma isTally_deleteUserLine (u : User) (r : Except String Unit) :
    isTally (deleteUserLine u r) = false := by
  cases r with
  | ok v =>
    simp only [deleteUserLine]
    rw [isTally_append _ _ (by decide)]
    decide
  | error m =>
    simp only [deleteUserLine]
    rw [isTally_append _ _ (by decide)]
    decide

lemma isTally_deleteMembershipLine (m : Membership)
    (r : Except String Unit) :
    isTally (deleteMembershipLine m r) = false := by
  cases r with
  | ok v =>
    simp only [deleteMembershipLine]
    rw [isTally_append _ _ (by decide)]
    decide
  | error msg =>
    simp only [deleteMembershipLine]
    rw [isTally_append _ _ (by decide)]
    decide

lemma isTally_deleteOrgLine (org : Org) (r : Except String Unit) :
    isTally (deleteOrgLine org r) = false := by
  unfold deleteOrgLine
  cases classifyDeleteOrg r with
  | deleted =>
    rw [isTally_append _ _ (by decide)]
    decide
  | skipped =>
    rw [isTally_append _ _ (by decide)]
    decide
  | failed =>
    rw [isTally_append _ _ (by decide)]
    decide

lemma isTally_delUsersSummary (deleted failed : Nat) :
    isTally (delUsersSummary deleted failed) = true := by
  unfold delUsersSummary
  rw [isTally_append _ _ (by decide)]
  decide

lemma isTally_delMembershipsSummary (deleted failed : Nat) :
    isTally (delMembershipsSummary deleted failed) = true := by
  unfold delMembershipsSummary
  rw [isTally_append _ _ (by decide)]
  decide

lemma isTally_delOrgsSummary (deleted skipped failed : Nat) :
    isTally (delOrgsSummary deleted skipped failed) = true := by
  unfold delOrgsSummary
  rw [isTally_append _ _ (by decide)]
  decide

lemma isTally_addTally (created : Nat) :
    isTally ("Done - added user to " ++
      (Nat.repr created ++ " organizations")) = true := by
  rw [isTally_append _ _ (by decide)]
  decide

lemma countP_concat_tally (ls : List String) (s : String)
    (hls : ∀ l ∈ ls, isTally l = false) (hs : isTally s = true) :
    (ls ++ [s]).countP isTally = 1 ∧
    isTally ((ls ++ [s]).getLastD "") = true := by
  constructor
  · rw [List.countP_append]
    have h0 : ls.countP isTally = 0 := by
      rw [List.countP_eq_zero]
      intro a ha
      rw [hls a ha]
      exact Bool.noConfusion
    rw [h0, List.countP_cons, List.countP_nil, hs]
    simp
  · rw [List.getLastD_concat]
    exact hs

lemma mem_data_split (a b : String) (c : Char) :
    c ∈ (a ++ b).data ↔ c ∈ a.data ∨ c ∈ b.data := by
  rw [String.data_append, List.mem_append]

lemma k_not_mem_delOrgsSummary (d f : Nat) :
    ('k' : Char) ∉ (delOrgsSummary d 0 f).data := by
  unfold delOrgsSummary
  rw [if_neg (lt_irrefl 0)]
  intro hk
  by_cases hf : 0 < f
  · rw [if_pos hf] at hk
    simp only [mem_data_split] at hk
    rcases hk with h | h | h | h | h | h | h
    · exact absurd h (by decide)
    · exact char_not_mem_repr d 'k' (by decide) h
    · exact absurd h (by decide)
    · exact absurd h (by decide)
    · exact absurd h (by decide)
    · exact char_not_mem_repr f 'k' (by decide) h
    · exact absurd h (by decide)
  · rw [if_neg hf] at hk
    simp only [mem_data_split] at hk
    rcases hk with h | h | h | h | h
    · exact absurd h (by decide)
    · exact char_not_mem_repr d 'k' (by decide) h
    · exact absurd h (by decide)
    · exact absurd h (by decide)
    · exact absurd h (by decide)

lemma f_not_mem_delOrgsSummary (d s : Nat) :
    ('f' : Char) ∉ (delOrgsSummary d s 0).data := by
  unfold delOrgsSummary
  rw [if_neg (lt_irrefl 0)]
  intro hk
  by_cases hs : 0 < s
  · rw [if_pos hs] at hk
    simp only [mem_data_split] at hk
    rcases hk with h | h | h | (h | h | h) | h
    · exact absurd h (by decide)
    · exact char_not_mem_repr d 'f' (by decide) h
    · exact absurd h (by decide)
    · exact absurd h (by decide)
    · exact char_not_mem_repr s 'f' (by decide) h
    · exact absurd h (by decide)
    · exact absurd h (by decide)
  · rw [if_neg hs] at hk
    simp only [mem_data_split] at hk
    rcases hk with h | h | h | h | h
    · exact absurd h (by decide)
    · exact char_not_mem_repr d 'f' (by decide) h
    · exact absurd h (by decide)
    · exact absurd h (by decide)
    · exact absurd h (by decide)

lemma f_not_mem_delUsersSummary (d : Nat) :
    ('f' : Char) ∉ (delUsersSummary d 0).data := by
  unfold delUsersSummary
  rw [if_neg (lt_irrefl 0)]
  intro hk
  simp only [mem_data_split] at hk
  rcases hk with h | h | h | h
  · exact absurd h (by decide)
  · exact char_not_mem_repr d 'f' (by decide) h
  · exact absurd h (by decide)
  · exact absurd h (by decide)

lemma f_not_mem_delMembershipsSummary (d : Nat) :
    ('f' : Char) ∉ (delMembershipsSummary d 0).data := by
  unfold delMembershipsSummary
  rw [if_neg (lt_irrefl 0)]
  intro hk
  simp only [mem_data_split] at hk
  rcases hk with h | h | h | h
  · exact absurd h (by decide)
  · exact char_not_mem_repr d 'f' (by decide) h
  · exact absurd h (by decide)
  · exact absurd h (by decide)

lemma delOrgsSummary_skipped_pos (d s f : Nat) (hs : 0 < s) :
    containsSub (delOrgsSummary d s f) " skipped" = true := by
  rw [containsSub_iff]
  unfold delOrgsSummary
  rw [if_pos hs]
  refine ⟨"Done - deleted ".data ++ (Nat.repr d).data ++
    " organizations".data ++ ", ".data ++ (Nat.repr s).data,
    (if 0 < f then ", " ++ (Nat.repr f ++ " failed") else "").data, ?_⟩
  simp only [String.data_append, List.append_assoc]

lemma delOrgsSummary_failed_pos (d s f : Nat) (hf : 0 < f) :
    containsSub (delOrgsSummary d s f) " failed" = true := by
  rw [containsSub_iff]
  unfold delOrgsSummary
  rw [if_pos hf]
  refine ⟨"Done - deleted ".data ++ (Nat.repr d).data ++
    " organizations".data ++
    (if 0 < s then ", " ++ (Nat.repr s ++ " skipped") else "").data ++
    ", ".data ++ (Nat.repr f).data, [], ?_⟩
  simp only [String.data_append, List.append_assoc, List.append_nil]

lemma delUsersSummary_failed_pos (d f : Nat) (hf : 0 < f) :
    containsSub (delUsersSummary d f) " failed" = true := by
  rw [containsSub_iff]
  unfold delUsersSummary
  rw [if_pos hf]
  refine ⟨"Done - deleted ".data ++ (Nat.repr d).data ++ " users".data ++
    ", ".data ++ (Nat.repr f).data, [], ?_⟩
  simp only [String.data_append, List.append_assoc, List.append_nil]

lemma delMembershipsSummary_failed_pos (d f : Nat) (hf : 0 < f) :
    containsSub (delMembershipsSummary d f) " failed" = true := by
  rw [containsSub_iff]
  unfold delMembershipsSummary
  rw [if_pos hf]
  refine ⟨"Done - deleted ".data ++ (Nat.repr d).data ++
    " memberships".data ++ ", ".data ++ (Nat.repr f).data, [], ?_⟩
  simp only [String.data_append, List.append_assoc, List.append_nil]

/-- C5 counterexample: the `createOrgs` bulk action emits no final tally
line at all — with one successfully created organization its output is the
single per-item line, and the number of lines of the form `Done - …` is
`0`, not exactly one.  (`createUsers` likewise prints only per-item
lines.) -/
theorem createOrgs_no_tally_cex :
    createOrgsLines [(1, Except.ok ⟨"org_01ABC", "Organization 1"⟩)] =
      ["Created org \"Organization 1\" (org_01ABC)"] ∧
    (createOrgsLines
      [(1, Except.ok ⟨"org_01ABC", "Organization 1"⟩)]).countP isTally =
      0 := by
  constructor
  · rfl
  · rfl

/-- C5 amended: the three delete-all bulk actions and the add-one-to-all
action each end by emitting exactly one tally line starting `Done - `, as
the final line of the batch output; in `deleteAllOrgs` the tally mentions
the skipped and failed classes exactly when their counts are nonzero, and
in `deleteAllUsers`/`deleteAllMemberships` it mentions the failed class
exactly when its count is nonzero.  The create-N actions (`createOrgs`,
`createUsers`) emit only per-item lines and no tally line. -/
theorem bulk_tally_amended :
    (∀ rs, (deleteAllUsersLines rs).countP isTally = 1 ∧
      isTally ((deleteAllUsersLines rs).getLastD "") = true) ∧
    (∀ rs, (deleteAllOrgsLines rs).countP isTally = 1 ∧
      isTally ((deleteAllOrgsLines rs).getLastD "") = true) ∧
    (∀ rs, (deleteAllMembershipsLines rs).countP isTally = 1 ∧
      isTally ((deleteAllMembershipsLines rs).getLastD "") = true) ∧
    (∀ rs, (addAllMembershipsLines rs).countP isTally = 1 ∧
      isTally ((addAllMembershipsLines rs).getLastD "") = true) ∧
    (∀ rs, (createOrgsLines rs).countP isTally = 0) ∧
    (∀ rs, (createUsersLines rs).countP isTally = 0) ∧
    (∀ d s f, containsSub (delOrgsSummary d s f) " skipped" =
      decide (0 < s)) ∧
    (∀ d s f, containsSub (delOrgsSummary d s f) " failed" =
      decide (0 < f)) ∧
    (∀ d f, containsSub (delUsersSummary d f) " failed" =
      decide (0 < f)) ∧
    (∀ d f, containsSub (delMembershipsSummary d f) " failed" =
      decide (0 < f)) := by
  refine ⟨?_, ?_, ?_, ?_, ?_, ?_, ?_, ?_, ?_, ?_⟩
  · intro rs
    exact countP_concat_tally _ _
      (by
        intro l hl
        obtain ⟨p, _, hp⟩ := List.mem_map.mp hl
        rw [← hp]
        exact isTally_deleteUserLine p.1 p.2)
      (isTally_delUsersSummary _ _)
  · intro rs
    exact countP_concat_tally _ _
      (by
        intro l hl
        obtain ⟨p, _, hp⟩ := List.mem_map.mp hl
        rw [← hp]
        exact isTally_deleteOrgLine p.1 p.2)
      (isTally_delOrgsSummary _ _ _)
  · intro rs
    exact countP_concat_tally _ _
      (by
        intro l hl
        obtain ⟨p, _, hp⟩ := List.mem_map.mp hl
        rw [← hp]
        exact isTally_deleteMembershipLine p.1 p.2)
      (isTally_delMembershipsSummary _ _)
  · intro rs
    exact countP_concat_tally _ _
      (by
        intro l hl
        obtain ⟨p, _, hp⟩ := List.mem_map.mp hl
        rw [← hp]
        exact isTally_addMembershipLine p.1 p.2)
      (isTally_addTally _)
  · intro rs
    rw [List.countP_eq_zero]
    intro l hl
    obtain ⟨p, _, hp⟩ := List.mem_map.mp hl
    rw [← hp, isTally_createOrgLine p.1 p.2]
    exact Bool.noConfusion
  · intro rs
    rw [List.countP_eq_zero]
    intro l hl
    obtain ⟨p, _, hp⟩ := List.mem_map.mp hl
    rw [← hp, isTally_createUserLine p.1 p.2]
    exact Bool.noConfusion
  · intro d s f
    by_cases hs : 0 < s
    · rw [delOrgsSummary_skipped_pos d s f hs, decide_eq_true hs]
    · rw [decide_eq_false hs]
      cases hcs : containsSub (delOrgsSummary d s f) " skipped" with
      | false => rfl
      | true =>
        exfalso
        have hinf := (containsSub_iff _ _).mp hcs
        have hk : ('k' : Char) ∈ (delOrgsSummary d s f).data :=
          hinf.subset (by decide)
        have hs0 : s = 0 := by omega
        rw [hs0] at hk
        exact k_not_mem_delOrgsSummary d f hk
  · intro d s f
    by_cases hf : 0 < f
    · rw [delOrgsSummary_failed_pos d s f hf, decide_eq_true hf]
    · rw [decide_eq_false hf]
      cases hcs : containsSub (delOrgsSummary d s f) " failed" with
      | false => rfl
      | true =>
        exfalso
        have hinf := (containsSub_iff _ _).mp hcs
        have hk : ('f' : Char) ∈ (delOrgsSummary d s f).data :=
          hinf.subset (by decide)
        have hf0 : f = 0 := by omega
        rw [hf0] at hk
        exact f_not_mem_delOrgsSummary d s hk
  · intro d f
    by_cases hf : 0 < f
    · rw [delUsersSummary_failed_pos d f hf, decide_eq_true hf]
    · rw [decide_eq_false hf]
      cases hcs : containsSub (delUsersSummary d f) " failed" with
      | false => rfl
      | true =>
        exfalso
        have hinf := (containsSub_iff _ _).mp hcs
        have hk : ('f' : Char) ∈ (delUsersSummary d f).data :=
          hinf.subset (by decide)
        have hf0 : f = 0 := by omega
        rw [hf0] at hk
        exact f_not_mem_delUsersSummary d hk
  · intro d f
    by_cases hf : 0 < f
    · rw [delMembershipsSummary_failed_pos d f hf, decide_eq_true hf]
    · rw [decide_eq_false hf]
      cases hcs : containsSub (delMembershipsSummary d f) " failed" with
      | false => rfl
      | true =>
        exfalso
        have hinf := (containsSub_iff _ _).mp hcs
        have hk : ('f' : Char) ∈ (delMembershipsSummary d f).data :=
          hinf.subset (by decide)
        have hf0 : f = 0 := by omega
        rw [hf0] at hk
        exact f_not_mem_delMembershipsSummary d hk

end Cliinator
